import Mathlib

/-!
Shallow embedding of the variable-substitution engine of `src/cenv.cc`
(function `cenv::substitute_vars`, lines 58-212), together with theorems
settling the claims of the specification against it.

The C++ engine reads characters from an input stream, writes to an output
stream, and keeps a `std::stack<stack_entry>` of in-progress variable
names plus a flag `after_dollar`.  The embedding represents the mutable
state as `EngineState`: the flag, the stack as a list whose head is the
top, and the text already committed to the output stream.  Each helper
lambda of the source becomes a Lean function of the same name.  Thrown
exceptions are modelled with `Except`; the top-level runner additionally
returns the state reached when an exception is raised, so that the text
already committed to the caller-supplied output stream at that moment is
observable (the source writes straight into the stream it was handed,
see `operator<<` at lines 220-227).
-/

namespace Cenv

/-- The four kinds of `syntax_exception` thrown by the engine
(`Unknown variable`, `Unterminated braced variable`,
`Invalid variable start character`, `Recursion depth limit exceeded`). -/
inductive SubstError where
  | unknownVariable (name : List Char)
  | unterminatedBracedVariable
  | invalidVariableStart (ch : Char)
  | recursionLimitExceeded
deriving DecidableEq

/-- `stack_entry` (lines 63-73): one in-progress variable name, with the
`braced` flag and the `contents` accumulated so far. -/
structure stack_entry where
  braced : Bool
  contents : List Char
deriving DecidableEq

/-- The mutable locals of `substitute_vars` (lines 75-76) plus the text
committed to the output stream so far. The head of `stack` is `top()`. -/
structure EngineState where
  after_dollar : Bool
  stack : List stack_entry
  output : List Char
deriving DecidableEq

/-- The variable mapping (`std::unordered_map<std::string, std::string>`):
an association list with (as in the source map) at most one binding per
key relevant to lookups. -/
abbrev VarMap := List (List Char × List Char)

/-- The initial state of one invocation: flag cleared, empty stack,
nothing written yet. -/
def initState : EngineState := ⟨false, [], []⟩

/-- `is_braced` (lines 80-82): the stack is nonempty and its top is braced. -/
def is_braced (st : EngineState) : Bool :=
  match st.stack with
  | f :: _ => f.braced
  | [] => false

/-- `is_unbraced` (lines 84-86): the stack is nonempty and its top is not
braced. -/
def is_unbraced (st : EngineState) : Bool :=
  match st.stack with
  | f :: _ => !f.braced
  | [] => false

/-- `lookup` (lines 88-99): `variables.find(key)`; the `none` result
corresponds to the `Unknown variable` throw, raised at the call sites. -/
def lookup (vars : VarMap) (key : List Char) : Option (List Char) :=
  List.lookup key vars

/-- `push` (lines 101-106): refuse when the stack already holds 1024 or
more frames, otherwise push a fresh frame with empty contents. -/
def push (braced : Bool) (st : EngineState) : Except SubstError EngineState :=
  if 1024 ≤ st.stack.length then
    .error .recursionLimitExceeded
  else
    .ok { st with stack := ⟨braced, []⟩ :: st.stack }

/-- `write` (lines 108-113): append one character to the top frame when
the stack is nonempty, otherwise emit it to the output stream. -/
def write (ch : Char) (st : EngineState) : EngineState :=
  match st.stack with
  | f :: rest => { st with stack := { f with contents := f.contents ++ [ch] } :: rest }
  | [] => { st with output := st.output ++ [ch] }

/-- `write_str` (lines 115-120): append a whole string to the top frame
when the stack is nonempty, otherwise emit it to the output stream. -/
def write_str (s : List Char) (st : EngineState) : EngineState :=
  match st.stack with
  | f :: rest => { st with stack := { f with contents := f.contents ++ s } :: rest }
  | [] => { st with output := st.output ++ s }

/-- `pop` (lines 122-128): take the top frame off the stack, look its
contents up, and write the looked-up value via `write_str`; the failed
lookup throws `Unknown variable`.  The source asserts the stack is
nonempty here, and every call site guarantees it; the empty case below is
unreachable. -/
def pop (vars : VarMap) (st : EngineState) : Except SubstError EngineState :=
  match st.stack with
  | [] => .ok st
  | f :: rest =>
    match lookup vars f.contents with
    | some v => .ok (write_str v { st with stack := rest })
    | none => .error (.unknownVariable f.contents)

/-- The identifier character class: the explicit `case` labels of the
source (lines 191-199): underscore, lowercase and uppercase ASCII
letters, decimal digits. -/
def isIdentChar (ch : Char) : Bool :=
  decide (ch = '_' ∨ ('a' ≤ ch ∧ ch ≤ 'z') ∨ ('A' ≤ ch ∧ ch ≤ 'Z') ∨
    ('0' ≤ ch ∧ ch ≤ '9'))

/-- One iteration of the automaton loop (lines 132-205): the `switch` on
the current character.  Note two faithfully reproduced details of the
source: in the identifier case the flag `after_dollar` is not cleared
(lines 200-204), and in the `default` case with an unbraced top frame the
code pops and then `break`s without writing the character (lines
176-180). -/
def step (vars : VarMap) (ch : Char) (st : EngineState) : Except SubstError EngineState :=
  if ch = '$' then
    if st.after_dollar then
      .ok (write '$' { st with after_dollar := false })
    else
      match (if is_unbraced st then pop vars st else .ok st) with
      | .error e => .error e
      | .ok st1 => .ok { st1 with after_dollar := true }
  else if ch = '{' then
    if st.after_dollar then
      push true { st with after_dollar := false }
    else
      match (if is_unbraced st then pop vars st else .ok st) with
      | .error e => .error e
      | .ok st1 => .ok (write '{' st1)
  else if ch = '}' then
    if is_braced st && !st.after_dollar then
      pop vars st
    else
      .ok (write '}' { st with after_dollar := false })
  else if isIdentChar ch then
    if st.after_dollar then
      match push false st with
      | .error e => .error e
      | .ok st1 => .ok (write ch st1)
    else
      .ok (write ch st)
  else
    if is_unbraced st then
      pop vars st
    else if st.after_dollar then
      .error (.invalidVariableStart ch)
    else
      .ok (write ch st)

/-- The scanning loop (`while (input.get (ch)) switch ...`): process the
input characters in order; a thrown exception stops the loop, and the
state reached at that moment (holding the text already committed to the
output stream) is returned alongside the error. -/
def runChars (vars : VarMap) : List Char → EngineState → EngineState × Option SubstError
  | [], st => (st, none)
  | ch :: rest, st =>
    match step vars ch st with
    | .error e => (st, some e)
    | .ok st1 => runChars vars rest st1

/-- The drain loop at end of input (lines 207-211), with the current top
frame as an explicit first argument so that the recursion is structural
on the rest of the stack: while frames remain, a braced top throws
`Unterminated braced variable` and an unbraced top is popped (its
contents looked up and the value written via `write_str` onto the next
frame, or onto the output once the stack is empty). -/
def drainFrames (vars : VarMap) : stack_entry → List stack_entry → List Char →
    List Char × Option SubstError
  | f, [], out =>
    if f.braced then
      (out, some .unterminatedBracedVariable)
    else
      match lookup vars f.contents with
      | none => (out, some (.unknownVariable f.contents))
      | some v => (out ++ v, none)
  | f, g :: gs, out =>
    if f.braced then
      (out, some .unterminatedBracedVariable)
    else
      match lookup vars f.contents with
      | none => (out, some (.unknownVariable f.contents))
      | some v => drainFrames vars { g with contents := g.contents ++ v } gs out

/-- The drain loop entry point: nothing to do on an empty stack. -/
def drain (vars : VarMap) (st : EngineState) : List Char × Option SubstError :=
  match st.stack with
  | [] => (st.output, none)
  | f :: rest => drainFrames vars f rest st.output

/-- `substitute_vars` (lines 58-212): run the automaton over the whole
input, then drain the stack.  The result is the text committed to the
output stream together with the exception raised, if any. -/
def substitute_vars (input : List Char) (vars : VarMap) : List Char × Option SubstError :=
  match runChars vars input initState with
  | (st, some e) => (st.output, some e)
  | (st, none) => drain vars st

/-- The expansion contract of the specification: the fully expanded text
on success, the structured error on failure. -/
def expand (input : List Char) (vars : VarMap) : Except SubstError (List Char) :=
  match substitute_vars input vars with
  | (out, none) => .ok out
  | (_, some e) => .error e

/-- The mapping used for the 1024-deep nesting witness: the innermost
name `A` and the empty names assembled by the enclosing frames all map to
the empty string. -/
def deepMap : VarMap := [("A".toList, []), (([] : List Char), [])]

/-- A run of `n` copies of the two characters `${`, the canonical
template of `n` nested braced opens. -/
def dollarOpens : Nat → List Char
  | 0 => []
  | n + 1 => '$' :: '{' :: dollarOpens n

/-- A run of `n` closing braces. -/
def closeBraces : Nat → List Char
  | 0 => []
  | n + 1 => '}' :: closeBraces n

/-! ### General lemmas about the scanner -/

/-- Processing a concatenation: run the first part; if it raised no
error, continue with the second part from the state reached. -/
theorem runChars_append (vars : VarMap) (xs ys : List Char) (st : EngineState) :
    runChars vars (xs ++ ys) st =
      match runChars vars xs st with
      | (st1, none) => runChars vars ys st1
      | (st1, some e) => (st1, some e) := by
  induction xs generalizing st with
  | nil => rfl
  | cons c cs ih =>
    simp only [List.cons_append, runChars]
    cases step vars c st with
    | error e => rfl
    | ok st1 => exact ih st1

/-- The defining equation of `runChars` on a cons, as a rewrite rule. -/
theorem runChars_cons (vars : VarMap) (ch : Char) (rest : List Char)
    (st : EngineState) :
    runChars vars (ch :: rest) st =
      match step vars ch st with
      | .error e => (st, some e)
      | .ok st1 => runChars vars rest st1 := rfl

/-- A successful step advances the scan by one character. -/
theorem runChars_cons_ok {vars : VarMap} {ch : Char} {st st1 : EngineState}
    (h : step vars ch st = .ok st1) (rest : List Char) :
    runChars vars (ch :: rest) st = runChars vars rest st1 := by
  rw [runChars_cons, h]

/-- A failing step aborts the scan with the state reached so far. -/
theorem runChars_cons_err {vars : VarMap} {ch : Char} {st : EngineState}
    {e : SubstError} (h : step vars ch st = .error e) (rest : List Char) :
    runChars vars (ch :: rest) st = (st, some e) := by
  rw [runChars_cons, h]

/-- An error-free prefix run lets the scan continue on the suffix. -/
theorem runChars_append_ok {vars : VarMap} {xs : List Char}
    {st0 st1 : EngineState} (h : runChars vars xs st0 = (st1, none))
    (ys : List Char) :
    runChars vars (xs ++ ys) st0 = runChars vars ys st1 := by
  rw [runChars_append, h]

/-- Writing the empty string changes nothing. -/
theorem write_str_nil (st : EngineState) : write_str [] st = st := by
  obtain ⟨a, stk, out⟩ := st
  cases stk with
  | nil => simp [write_str]
  | cons f rest => cases f; simp [write_str]

/-- `is_unbraced` does not look at the flag. -/
theorem is_unbraced_set_flag (st : EngineState) (b : Bool) :
    is_unbraced { st with after_dollar := b } = is_unbraced st := rfl

/-- The drain loop does not look at the flag. -/
theorem drain_set_flag (vars : VarMap) (st : EngineState) (b : Bool) :
    drain vars { st with after_dollar := b } = drain vars st := rfl

/-- An unbraced top frame exists whenever `is_unbraced` holds. -/
theorem exists_of_is_unbraced {st : EngineState} (h : is_unbraced st = true) :
    ∃ f rest, st.stack = f :: rest ∧ f.braced = false := by
  unfold is_unbraced at h
  cases hs : st.stack with
  | nil => rw [hs] at h; exact absurd h (by simp)
  | cons f rest =>
    rw [hs] at h
    exact ⟨f, rest, rfl, by simpa using h⟩

/-- One iteration of the drain loop on an unbraced top frame is exactly a
`pop`: the `Unknown variable` throw aborts the drain, a successful lookup
continues draining the shortened stack. -/
theorem drain_pop (vars : VarMap) {st : EngineState} {f : stack_entry}
    {rest : List stack_entry} (hs : st.stack = f :: rest) (hb : f.braced = false) :
    drain vars st =
      match pop vars st with
      | .error e => (st.output, some e)
      | .ok st1 => drain vars st1 := by
  obtain ⟨a, stk, out⟩ := st
  replace hs : stk = f :: rest := hs
  subst hs
  cases hl : lookup vars f.contents with
  | none => cases rest <;> simp [drain, pop, drainFrames, hb, hl]
  | some v =>
    cases rest with
    | nil => simp [drain, pop, drainFrames, hb, hl, write_str]
    | cons g gs => simp [drain, pop, drainFrames, hb, hl, write_str]

/-! ### Output committed to the stream only ever grows -/

/-- `write` only appends to the committed output (or leaves it alone and
writes into the top frame). -/
theorem write_output_ext (ch : Char) (st : EngineState) :
    ∃ t, (write ch st).output = st.output ++ t := by
  obtain ⟨a, stk, out⟩ := st
  cases stk with
  | nil => exact ⟨[ch], rfl⟩
  | cons f rest => exact ⟨[], by simp [write]⟩

/-- `write_str` only appends to the committed output. -/
theorem write_str_output_ext (s : List Char) (st : EngineState) :
    ∃ t, (write_str s st).output = st.output ++ t := by
  obtain ⟨a, stk, out⟩ := st
  cases stk with
  | nil => exact ⟨s, rfl⟩
  | cons f rest => exact ⟨[], by simp [write_str]⟩

/-- A successful `push` leaves the committed output unchanged. -/
theorem push_output {b : Bool} {st st1 : EngineState}
    (h : push b st = .ok st1) : st1.output = st.output := by
  unfold push at h
  split at h
  · exact Except.noConfusion h
  · cases h; rfl

/-- A successful `pop` only appends to the committed output. -/
theorem pop_output_ext {vars : VarMap} {st st1 : EngineState}
    (h : pop vars st = .ok st1) : ∃ t, st1.output = st.output ++ t := by
  unfold pop at h
  split at h
  · cases h; exact ⟨[], by simp⟩
  · split at h
    · cases h; exact write_str_output_ext ..
    · exact Except.noConfusion h

/-- A successful automaton step only appends to the committed output. -/
theorem step_output_ext {vars : VarMap} {ch : Char} {st st1 : EngineState}
    (h : step vars ch st = .ok st1) : ∃ t, st1.output = st.output ++ t := by
  unfold step at h
  by_cases h1 : ch = '$'
  · rw [if_pos h1] at h
    by_cases h2 : st.after_dollar = true
    · rw [if_pos h2] at h
      cases h
      exact write_output_ext ..
    · rw [if_neg h2] at h
      cases hp : (if is_unbraced st then pop vars st else .ok st) with
      | error e => rw [hp] at h; exact Except.noConfusion h
      | ok s =>
        rw [hp] at h
        cases h
        by_cases hu : is_unbraced st
        · rw [if_pos hu] at hp
          obtain ⟨t, ht⟩ := pop_output_ext hp
          exact ⟨t, ht⟩
        · rw [if_neg hu] at hp
          cases hp
          exact ⟨[], by simp⟩
  · rw [if_neg h1] at h
    by_cases h2 : ch = '{'
    · rw [if_pos h2] at h
      by_cases h3 : st.after_dollar = true
      · rw [if_pos h3] at h
        rw [push_output h]
        exact ⟨[], by simp⟩
      · rw [if_neg h3] at h
        cases hp : (if is_unbraced st then pop vars st else .ok st) with
        | error e => rw [hp] at h; exact Except.noConfusion h
        | ok s =>
          rw [hp] at h
          cases h
          have hmid : ∃ t, s.output = st.output ++ t := by
            by_cases hu : is_unbraced st
            · rw [if_pos hu] at hp
              exact pop_output_ext hp
            · rw [if_neg hu] at hp
              cases hp
              exact ⟨[], by simp⟩
          obtain ⟨t1, ht1⟩ := hmid
          obtain ⟨t2, ht2⟩ := write_output_ext '{' s
          exact ⟨t1 ++ t2, by rw [ht2, ht1, List.append_assoc]⟩
    · rw [if_neg h2] at h
      by_cases h3 : ch = '}'
      · rw [if_pos h3] at h
        by_cases h4 : (is_braced st && !st.after_dollar) = true
        · rw [if_pos h4] at h
          exact pop_output_ext h
        · rw [if_neg h4] at h
          cases h
          exact write_output_ext ..
      · rw [if_neg h3] at h
        by_cases h4 : isIdentChar ch = true
        · rw [if_pos h4] at h
          by_cases h5 : st.after_dollar = true
          · rw [if_pos h5] at h
            cases hp : push false st with
            | error e => rw [hp] at h; exact Except.noConfusion h
            | ok s =>
              rw [hp] at h
              cases h
              obtain ⟨t2, ht2⟩ := write_output_ext ch s
              exact ⟨t2, by rw [ht2, push_output hp]⟩
          · rw [if_neg h5] at h
            cases h
            exact write_output_ext ..
        · rw [if_neg h4] at h
          by_cases h5 : is_unbraced st = true
          · rw [if_pos h5] at h
            exact pop_output_ext h
          · rw [if_neg h5] at h
            by_cases h6 : st.after_dollar = true
            · rw [if_pos h6] at h
              exact Except.noConfusion h
            · rw [if_neg h6] at h
              cases h
              exact write_output_ext ..

/-- The whole scan only ever appends to the committed output, whether it
ends normally or with an error: nothing already written is taken back. -/
theorem runChars_output_ext (vars : VarMap) (input : List Char) :
    ∀ st : EngineState, ∃ t, (runChars vars input st).1.output = st.output ++ t := by
  induction input with
  | nil => exact fun st => ⟨[], by simp [runChars]⟩
  | cons c cs ih =>
    intro st
    simp only [runChars]
    cases hs : step vars c st with
    | error e => exact ⟨[], by simp⟩
    | ok st1 =>
      obtain ⟨t1, ht1⟩ := step_output_ext hs
      obtain ⟨t2, ht2⟩ := ih st1
      exact ⟨t1 ++ t2, by rw [ht2, ht1, List.append_assoc]⟩

/-! ### Behaviour of single steps -/

/-- An identifier character seen while `after_dollar` is set pushes a
fresh unbraced frame and writes the character into it, so the new top
frame holds exactly that one character.  Note that the source does not
clear `after_dollar` here. -/
theorem step_ident_push (vars : VarMap) (ch : Char) (st : EngineState)
    (hid : isIdentChar ch = true) (hd : st.after_dollar = true)
    (hlen : st.stack.length < 1024) :
    step vars ch st = .ok ⟨st.after_dollar, ⟨false, [ch]⟩ :: st.stack, st.output⟩ := by
  have hne1 : ch ≠ '$' := by rintro rfl; exact absurd hid (by decide)
  have hne2 : ch ≠ '{' := by rintro rfl; exact absurd hid (by decide)
  have hne3 : ch ≠ '}' := by rintro rfl; exact absurd hid (by decide)
  unfold step
  rw [if_neg hne1, if_neg hne2, if_neg hne3, if_pos hid, if_pos hd]
  unfold push
  rw [if_neg (by omega)]
  simp [write]

/-- A `$` seen with the flag clear and no unbraced top frame just sets
the flag. -/
theorem step_dollar_clean (vars : VarMap) (st : EngineState)
    (hd : st.after_dollar = false) (hu : is_unbraced st = false) :
    step vars '$' st = .ok { st with after_dollar := true } := by
  simp [step, hd, hu]

/-- A character other than `$`, `{`, `}` and the identifier class, seen
while the flag is set and the top frame is not unbraced, raises
`Invalid variable start character`. -/
theorem step_other_invalid (vars : VarMap) (ch : Char) (st : EngineState)
    (h1 : ch ≠ '$') (h2 : ch ≠ '{') (h3 : ch ≠ '}')
    (hid : isIdentChar ch = false) (hu : is_unbraced st = false)
    (hd : st.after_dollar = true) :
    step vars ch st = .error (.invalidVariableStart ch) := by
  unfold step
  rw [if_neg h1, if_neg h2, if_neg h3, if_neg (by simp [hid]),
    if_neg (by simp [hu]), if_pos hd]

/-- In plain-text mode (flag clear, empty stack) every character other
than `$` is copied to the output verbatim. -/
theorem step_plain_empty (vars : VarMap) (ch : Char) (out : List Char)
    (h : ch ≠ '$') :
    step vars ch ⟨false, [], out⟩ = .ok ⟨false, [], out ++ [ch]⟩ := by
  unfold step
  rw [if_neg h]
  by_cases h2 : ch = '{'
  · subst h2; simp [is_unbraced, write]
  · rw [if_neg h2]
    by_cases h3 : ch = '}'
    · subst h3; simp [is_braced, write]
    · rw [if_neg h3]
      by_cases h4 : isIdentChar ch = true
      · rw [if_pos h4]; simp [write]
      · rw [if_neg h4]; simp [is_unbraced, write]

/-- Scanning dollar-free text from plain-text mode copies it to the
output and returns to the same mode. -/
theorem runChars_no_dollar (vars : VarMap) :
    ∀ s out : List Char, '$' ∉ s →
      runChars vars s ⟨false, [], out⟩ = (⟨false, [], out ++ s⟩, none) := by
  intro s
  induction s with
  | nil => intro out _; simp [runChars]
  | cons c cs ih =>
    intro out h
    have hc : c ≠ '$' := by rintro rfl; exact h (List.mem_cons_self ..)
    have hcs : '$' ∉ cs := fun hm => h (List.mem_cons_of_mem _ hm)
    simp only [runChars, step_plain_empty vars c out hc]
    rw [ih (out ++ [c]) hcs]
    simp

/-! ### The claims -/

/-- Claim C1: the spec says that a non-identifier character met while the
top frame is unbraced closes the frame and is then written through the
Sink Rule, so `expand("$A-b", [A ↦ x])` should be `x-b`.  The code
instead pops the frame and drops the character (`pop (); break;` with no
`write`), and, because `after_dollar` is never cleared when an unbraced
frame is opened, the later `b` opens a fresh frame of its own: the call
fails with `Unknown variable: b`, and even with `b` bound the result is
`xB`, not `x-b`. -/
theorem c1_dropped_delimiter_eval :
    expand "$A-b".toList [("A".toList, "x".toList)] =
      .error (.unknownVariable "b".toList) ∧
    expand "$A-b".toList [("A".toList, "x".toList), ("b".toList, "B".toList)] =
      .ok "xB".toList :=
  ⟨rfl, rfl⟩

/-- Counterexample to claim C2: after the failing call
`expand("a$!", ∅)` the output sink holds `"a"`, not nothing — the engine
writes straight into the caller-visible stream and discards nothing. -/
theorem c2_not_all_or_nothing :
    (substitute_vars "a$!".toList []).2.isSome = true ∧
    (substitute_vars "a$!".toList []).1 ≠ ([] : List Char) :=
  ⟨rfl, by decide⟩

/-- Claim C2 (amended): on failure the output already committed to the
sink before the error remains there — `expand("a$!", ∅)` fails with
`InvalidVariableStart('!')` leaving exactly `"a"` in the sink — and, in
general, a scan only ever appends to the committed output, so nothing is
rolled back. -/
theorem c2_failure_keeps_committed_output :
    substitute_vars "a$!".toList [] =
      ("a".toList, some (.invalidVariableStart '!')) ∧
    ∀ (vars : VarMap) (input : List Char) (st : EngineState),
      ∃ t, (runChars vars input st).1.output = st.output ++ t :=
  ⟨rfl, fun vars input st => runChars_output_ext vars input st⟩

/-- Counterexample to claim C3: the claim includes `}` among the
characters `c` for which `$` followed by `c` fails with
`InvalidVariableStart(c)`, but `expand("$}", ∅)` succeeds and yields a
literal `}` (the `}` case of the switch handles it before the `default`
case is reached). -/
theorem c3_dollar_rbrace_is_literal :
    expand "$\x7d".toList [] = .ok "\x7d".toList :=
  rfl

/-- Counterexample to claim C4: after scanning `${A-` the single open
frame's accumulated buffer is `A-`, which contains the non-identifier
character `-`: an open frame's buffer is not confined to the identifier
class. -/
theorem c4_buffer_not_ident_only :
    runChars [] "$\x7bA-".toList initState =
      (⟨false, [⟨true, "A-".toList⟩], []⟩, none) ∧
    isIdentChar '-' = false :=
  ⟨rfl, rfl⟩

/-- Claim C6: the spec example `expand("$FOO", [FOO ↦ bar]) = bar` fails
on the code: `after_dollar` is never cleared after an unbraced frame is
opened, so each of `F`, `O`, `O` opens its own frame and the drain then
resolves the innermost frame `O` first, failing with
`Unknown variable: O`.  The braced half of the claim does hold:
`expand("${UNCLOSED", ∅)` fails with `Unterminated braced variable`. -/
theorem c6_unbraced_eof_eval :
    expand "$FOO".toList [("FOO".toList, "bar".toList)] =
      .error (.unknownVariable "O".toList) ∧
    expand "$\x7bUNCLOSED".toList [] = .error .unterminatedBracedVariable :=
  ⟨rfl, rfl⟩

/-- Claim C9: expansion is the identity on dollar-free text: for every
input without `$` and every mapping, `expand` succeeds and returns the
input unchanged. -/
theorem c9_expand_identity (s : List Char) (vars : VarMap) (h : '$' ∉ s) :
    expand s vars = .ok s := by
  unfold expand substitute_vars initState
  rw [runChars_no_dollar vars s [] h]
  simp [drain]

/-- Witness for C9 at a concrete dollar-free input containing braces,
punctuation, identifier characters and a digit. -/
theorem c9_witness :
    ('$' ∉ "a-{}_9".toList) ∧ expand "a-{}_9".toList [] = .ok "a-{}_9".toList :=
  ⟨by decide, c9_expand_identity "a-{}_9".toList [] (by decide)⟩

/-- Claim C3 (amended): from any reachable state with the flag clear and
no unbraced top frame, an unescaped `$` immediately followed by a
character `c` that is none of `$`, `{`, `}` or an identifier character
aborts the whole expansion with `InvalidVariableStart(c)` (a following
`}` is excluded: it yields a literal `}` instead). -/
theorem c3_invalid_start (p s : List Char) (c : Char) (vars : VarMap)
    (st : EngineState) (hrun : runChars vars p initState = (st, none))
    (hd : st.after_dollar = false) (hu : is_unbraced st = false)
    (h1 : c ≠ '$') (h2 : c ≠ '{') (h3 : c ≠ '}') (hid : isIdentChar c = false) :
    expand (p ++ '$' :: c :: s) vars = .error (.invalidVariableStart c) := by
  have hstep1 : step vars '$' st = .ok { st with after_dollar := true } :=
    step_dollar_clean vars st hd hu
  have hstep2 : step vars c { st with after_dollar := true } =
      .error (.invalidVariableStart c) :=
    step_other_invalid vars c _ h1 h2 h3 hid
      (by rw [is_unbraced_set_flag]; exact hu) rfl
  unfold expand substitute_vars
  rw [runChars_append, hrun]
  simp [runChars, hstep1, hstep2]

/-- Witness for C3 at the spec example `expand("$!", ∅)`. -/
theorem c3_witness :
    expand (([] : List Char) ++ '$' :: '!' :: []) [] =
      .error (.invalidVariableStart '!') :=
  c3_invalid_start [] [] '!' [] initState rfl rfl rfl (by decide) (by decide)
    (by decide) (by decide)

/-- Claim C4 (amended): at the moment an unbraced frame is opened — an
identifier character with the flag set — the new top frame's buffer is
exactly that single character, which is in the identifier class; the
original claim that every open frame's buffer stays identifier-only at
every step is refuted by `c4_buffer_not_ident_only`. -/
theorem c4_fresh_frame_single_ident (vars : VarMap) (st : EngineState) (ch : Char)
    (hid : isIdentChar ch = true) (hd : st.after_dollar = true)
    (hlen : st.stack.length < 1024) :
    step vars ch st = .ok ⟨st.after_dollar, ⟨false, [ch]⟩ :: st.stack, st.output⟩ ∧
    ∀ a ∈ [ch], isIdentChar a = true := by
  refine ⟨step_ident_push vars ch st hid hd hlen, ?_⟩
  intro a ha
  rw [List.mem_singleton.mp ha]
  exact hid

/-- Witness for C4 at the concrete state reached right after a `$`. -/
theorem c4_witness :
    step [] 'A' ⟨true, [], []⟩ = .ok ⟨true, [⟨false, ['A']⟩], []⟩ ∧
    ∀ a ∈ ['A'], isIdentChar a = true :=
  c4_fresh_frame_single_ident [] ⟨true, [], []⟩ 'A' rfl rfl (by decide)

/-- Claim C7: resolving a frame writes the looked-up value through the
Sink Rule — onto the new top frame's accumulator when the stack remains
nonempty, otherwise onto the final output — and nested references
therefore compose into the enclosing name:
`expand("${A${B}}", [B ↦ X, AX ↦ hello]) = hello`. -/
theorem c7_resolution_composes :
    (∀ (vars : VarMap) (st : EngineState) (f g : stack_entry)
        (gs : List stack_entry) (v : List Char),
      st.stack = f :: g :: gs → lookup vars f.contents = some v →
      pop vars st =
        .ok ⟨st.after_dollar, { g with contents := g.contents ++ v } :: gs,
          st.output⟩) ∧
    (∀ (vars : VarMap) (st : EngineState) (f : stack_entry) (v : List Char),
      st.stack = [f] → lookup vars f.contents = some v →
      pop vars st = .ok ⟨st.after_dollar, [], st.output ++ v⟩) ∧
    expand "${A${B}}".toList [("B".toList, "X".toList), ("AX".toList, "hello".toList)] =
      .ok "hello".toList := by
  refine ⟨?_, ?_, rfl⟩
  · intro vars st f g gs v hs hl
    obtain ⟨a, stk, out⟩ := st
    replace hs : stk = f :: g :: gs := hs
    subst hs
    simp [pop, hl, write_str]
  · intro vars st f v hs hl
    obtain ⟨a, stk, out⟩ := st
    replace hs : stk = [f] := hs
    subst hs
    simp [pop, hl, write_str]

/-- Witness for C7: popping the inner frame `B` writes its value onto the
enclosing frame `A`, giving the composed name `AX`. -/
theorem c7_witness :
    pop [("B".toList, "X".toList)]
        ⟨false, [⟨false, "B".toList⟩, ⟨true, "A".toList⟩], []⟩ =
      .ok ⟨false, [⟨true, "AX".toList⟩], []⟩ :=
  c7_resolution_composes.1 [("B".toList, "X".toList)]
    ⟨false, [⟨false, "B".toList⟩, ⟨true, "A".toList⟩], []⟩
    ⟨false, "B".toList⟩ ⟨true, "A".toList⟩ [] "X".toList rfl rfl

/-- Claim C8: a resolved value is appended as opaque text and never
re-scanned: `expand("$X", [X ↦ $Y]) = $Y` literally; more generally a
single-character reference returns the mapped value verbatim, whatever
characters it contains; and expansion is not idempotent —
re-expanding the result `$Y` under the same mapping gives `z` instead. -/
theorem c8_value_opaque :
    expand "$X".toList [("X".toList, "$Y".toList)] = .ok "$Y".toList ∧
    (∀ (c : Char) (v : List Char) (vars : VarMap),
      isIdentChar c = true → lookup vars [c] = some v →
      expand ['$', c] vars = .ok v) ∧
    (expand "$X".toList [("X".toList, "$Y".toList), ("Y".toList, "z".toList)] =
        .ok "$Y".toList ∧
      expand "$Y".toList [("X".toList, "$Y".toList), ("Y".toList, "z".toList)] =
        .ok "z".toList ∧
      "z".toList ≠ "$Y".toList) := by
  refine ⟨rfl, ?_, rfl, rfl, by decide⟩
  intro c v vars hid hl
  have h1 : step vars '$' initState = .ok ⟨true, [], []⟩ := rfl
  have h2 : step vars c ⟨true, [], []⟩ = .ok ⟨true, [⟨false, [c]⟩], []⟩ :=
    step_ident_push vars c ⟨true, [], []⟩ hid rfl (by simp)
  unfold expand substitute_vars
  simp only [runChars, h1, h2]
  simp [drain, drainFrames, hl]

/-- Witness for C8: the general conjunct at `X ↦ $Y`. -/
theorem c8_witness :
    expand ['$', 'X'] [("X".toList, "$Y".toList)] = .ok "$Y".toList :=
  c8_value_opaque.2.1 'X' "$Y".toList [("X".toList, "$Y".toList)] rfl rfl

/-- Counterexample to claim C10: `expand("a$", ∅)` succeeds with `"a"`,
but appending one more `$` gives `expand("a$$", ∅) = "a$"` — the added
`$` pairs with the trailing one into an escaped literal `$` instead of
being dropped, so the results differ. -/
theorem c10_trailing_dollar_escapes :
    expand "a$".toList [] = .ok "a".toList ∧
    expand ("a$".toList ++ ['$']) [] = .ok "a$".toList ∧
    "a$".toList ≠ "a".toList :=
  ⟨rfl, rfl, by decide⟩

/-- Claim C10 (amended): a trailing `$` is silently dropped provided the
flag is clear after scanning the rest of the template: the end-of-input
drain never consults the flag, and the `$` step at most performs the same
pop the drain would have performed first, so the results coincide.  (When
the flag is still set after the template, the extra `$` escapes to a
literal `$` instead, see `c10_trailing_dollar_escapes`.) -/
theorem c10_trailing_dollar_dropped (t : List Char) (vars : VarMap)
    (st : EngineState) (hrun : runChars vars t initState = (st, none))
    (hd : st.after_dollar = false) :
    expand (t ++ ['$']) vars = expand t vars := by
  unfold expand substitute_vars
  rw [runChars_append, hrun]
  by_cases hu : is_unbraced st = true
  · obtain ⟨f, rest, hs, hb⟩ := exists_of_is_unbraced hu
    cases hp : pop vars st with
    | error e =>
      have hstep : step vars '$' st = .error e := by
        simp [step, hd, hu, hp]
      simp only [runChars, hstep]
      rw [drain_pop vars hs hb]
      simp [hp]
    | ok st1 =>
      have hstep : step vars '$' st = .ok { st1 with after_dollar := true } := by
        simp [step, hd, hu, hp]
      simp only [runChars, hstep]
      rw [drain_pop vars hs hb]
      simp [hp, drain_set_flag]
  · have hu' : is_unbraced st = false := by simpa using hu
    have hstep : step vars '$' st = .ok { st with after_dollar := true } :=
      step_dollar_clean vars st hd hu'
    simp only [runChars, hstep]
    simp [drain_set_flag]

/-- Witness for C10 on a dollar-free template. -/
theorem c10_witness :
    expand ("ab".toList ++ ['$']) [] = expand "ab".toList [] :=
  c10_trailing_dollar_dropped "ab".toList [] ⟨false, [], "ab".toList⟩ rfl rfl

/-! ### The depth limit (claim C5) -/

theorem dollarOpens_add (m n : Nat) :
    dollarOpens (m + n) = dollarOpens m ++ dollarOpens n := by
  induction m with
  | zero => simp [dollarOpens]
  | succ k ih =>
    rw [Nat.succ_add]
    simp [dollarOpens, ih]

/-- A stack of braced frames is never unbraced on top. -/
theorem is_unbraced_replicate (b : Bool) (k : Nat) (out : List Char) :
    is_unbraced ⟨b, List.replicate k ⟨true, []⟩, out⟩ = false := by
  cases k with
  | zero => rfl
  | succ n => simp [is_unbraced, List.replicate_succ]

/-- A `{` seen with the flag set pushes a braced frame (when the stack is
not yet full). -/
theorem step_open_brace (vars : VarMap) (st : EngineState)
    (hd : st.after_dollar = true) (hlen : st.stack.length < 1024) :
    step vars '{' st = .ok ⟨false, ⟨true, []⟩ :: st.stack, st.output⟩ := by
  unfold step
  rw [if_neg (by decide), if_pos rfl, if_pos hd]
  unfold push
  rw [if_neg (Nat.not_le.mpr hlen)]

/-- Scanning `n` nested `${` opens pushes `n` empty braced frames, as
long as the depth limit is not hit. -/
theorem runChars_opens (vars : VarMap) :
    ∀ (n k : Nat) (out : List Char), n + k ≤ 1024 →
      runChars vars (dollarOpens n) ⟨false, List.replicate k ⟨true, []⟩, out⟩ =
        (⟨false, List.replicate (n + k) ⟨true, []⟩, out⟩, none) := by
  intro n
  induction n with
  | zero => intro k out _; simp [dollarOpens, runChars]
  | succ m ih =>
    intro k out h
    have hstep1 : step vars '$' ⟨false, List.replicate k ⟨true, []⟩, out⟩ =
        .ok ⟨true, List.replicate k ⟨true, []⟩, out⟩ :=
      step_dollar_clean vars _ rfl (is_unbraced_replicate false k out)
    have hstep2 : step vars '{' ⟨true, List.replicate k ⟨true, []⟩, out⟩ =
        .ok ⟨false, List.replicate (k + 1) ⟨true, []⟩, out⟩ := by
      have := step_open_brace vars ⟨true, List.replicate k ⟨true, []⟩, out⟩ rfl
        (by simp; omega)
      rw [this]
      simp [List.replicate_succ]
    simp only [dollarOpens, runChars, hstep1, hstep2]
    rw [ih (k + 1) out (by omega)]
    have harith : m + (k + 1) = m + 1 + k := by omega
    rw [harith]

/-- Draining `n` empty braced names mapped by `deepMap` succeeds. -/
theorem runChars_closes :
    ∀ (n : Nat) (out : List Char),
      runChars deepMap (closeBraces n) ⟨false, List.replicate n ⟨true, []⟩, out⟩ =
        (⟨false, [], out⟩, none) := by
  intro n
  induction n with
  | zero => intro out; simp [closeBraces, runChars, List.replicate]
  | succ m ih =>
    intro out
    have hstep : step deepMap '}' ⟨false, List.replicate (m + 1) ⟨true, []⟩, out⟩ =
        .ok ⟨false, List.replicate m ⟨true, []⟩, out⟩ := by
      unfold step
      rw [if_neg (by decide), if_neg (by decide), if_pos rfl,
        if_pos (by simp [is_braced, List.replicate_succ])]
      simp only [pop, List.replicate_succ]
      rw [show lookup deepMap (⟨true, ([] : List Char)⟩ : stack_entry).contents =
        some [] from rfl]
      simp [write_str_nil]
    simp only [closeBraces, runChars, hstep]
    exact ih out

/-- Scanning `n ≤ 1024` nested opens from the initial state builds the
stack of `n` empty braced frames. -/
theorem runChars_opens_init (vars : VarMap) (n : Nat) (h : n ≤ 1024) :
    runChars vars (dollarOpens n) initState =
      (⟨false, List.replicate n ⟨true, []⟩, []⟩, none) := by
  have := runChars_opens vars n 0 [] (by omega)
  simpa [initState] using this

/-- Claim C5: the canonical template of 1025 nested `${` opens fails with
`RecursionLimitExceeded`; the canonical properly closed template of 1024
nested opens succeeds when every assembled name resolves; and, on any
reachable stack (depth at most 1024), `push` fails exactly when the stack
already holds 1024 frames. -/
theorem c5_depth_limit :
    (∀ vars : VarMap, expand (dollarOpens 1025) vars =
      .error .recursionLimitExceeded) ∧
    expand (dollarOpens 1024 ++ 'A' :: closeBraces 1024) deepMap =
      .ok ([] : List Char) ∧
    (∀ (b : Bool) (st : EngineState), st.stack.length ≤ 1024 →
      ((push b st = .error .recursionLimitExceeded) ↔ st.stack.length = 1024)) := by
  refine ⟨?_, ?_, ?_⟩
  · intro vars
    have hsplit : dollarOpens 1025 = dollarOpens 1024 ++ dollarOpens 1 := by
      rw [← dollarOpens_add]
    have h1 : step vars '$' ⟨false, List.replicate 1024 ⟨true, []⟩, []⟩ =
        .ok ⟨true, List.replicate 1024 ⟨true, []⟩, []⟩ :=
      step_dollar_clean vars _ rfl (is_unbraced_replicate false 1024 [])
    have h2 : step vars '{' ⟨true, List.replicate 1024 ⟨true, []⟩, []⟩ =
        .error .recursionLimitExceeded := by
      have hl2 : ((⟨true, List.replicate 1024 ⟨true, []⟩, []⟩ : EngineState)).stack.length
          = 1024 := List.length_replicate 1024 _
      unfold step
      rw [if_neg (by decide), if_pos rfl, if_pos rfl]
      unfold push
      rw [if_pos (le_of_eq hl2.symm)]
    have hrun : runChars vars (dollarOpens 1025) initState =
        (⟨true, List.replicate 1024 ⟨true, []⟩, []⟩, some .recursionLimitExceeded) := by
      rw [hsplit, runChars_append_ok (runChars_opens_init vars 1024 (by omega)),
        show dollarOpens 1 = ['$', '{'] from rfl,
        runChars_cons_ok h1, runChars_cons_err h2]
    unfold expand substitute_vars
    rw [hrun]
  · have hrepl : List.replicate 1024 (⟨true, []⟩ : stack_entry) =
        ⟨true, []⟩ :: List.replicate 1023 ⟨true, []⟩ := by
      rw [show (1024 : Nat) = 1023 + 1 from rfl, List.replicate_succ]
    have hmid : step deepMap 'A' ⟨false, List.replicate 1024 ⟨true, []⟩, []⟩ =
        .ok ⟨false, ⟨true, ['A']⟩ :: List.replicate 1023 ⟨true, []⟩, []⟩ := by
      unfold step
      rw [if_neg (by decide), if_neg (by decide), if_neg (by decide),
        if_pos (by decide), if_neg (by decide)]
      rw [hrepl]
      simp only [write, List.nil_append]
    have hstep2 : step deepMap '}'
        ⟨false, ⟨true, ['A']⟩ :: List.replicate 1023 ⟨true, []⟩, []⟩ =
        .ok ⟨false, List.replicate 1023 ⟨true, []⟩, []⟩ := by
      unfold step
      rw [if_neg (by decide), if_neg (by decide), if_pos rfl,
        if_pos (by decide)]
      simp only [pop]
      rw [show lookup deepMap (⟨true, ['A']⟩ : stack_entry).contents =
        some [] from rfl]
      simp only [write_str_nil]
    have hclose : closeBraces 1024 = '}' :: closeBraces 1023 := rfl
    have hrun : runChars deepMap (dollarOpens 1024 ++ 'A' :: closeBraces 1024)
        initState = (⟨false, [], []⟩, none) := by
      rw [runChars_append_ok (runChars_opens_init deepMap 1024 (by omega)),
        runChars_cons_ok hmid, hclose, runChars_cons_ok hstep2,
        runChars_closes 1023 []]
    unfold expand substitute_vars
    rw [hrun]
    rfl
  · intro b st h
    have hpush : push b st =
        if 1024 ≤ st.stack.length then .error .recursionLimitExceeded
        else .ok { st with stack := ⟨b, []⟩ :: st.stack } := rfl
    rw [hpush]
    by_cases hc : 1024 ≤ st.stack.length
    · rw [if_pos hc]
      simp
      omega
    · rw [if_neg hc]
      simp
      omega

set_option maxRecDepth 8192 in
/-- Witness for C5's `push` clause at a full stack of 1024 frames. -/
theorem c5_witness :
    (push true ⟨false, List.replicate 1024 ⟨true, []⟩, []⟩ =
        .error .recursionLimitExceeded) ↔
      (⟨false, List.replicate 1024 ⟨true, []⟩, []⟩ : EngineState).stack.length = 1024 :=
  c5_depth_limit.2.2 true ⟨false, List.replicate 1024 ⟨true, []⟩, []⟩
    (le_of_eq (List.length_replicate 1024 ⟨true, []⟩))

end Cenv
